import Mathlib

/-!
Verification development for the `rpgm-archive-decrypter-lib` repository
(`src/src/lib.rs`), a decrypter for RPG Maker `RGSSAD` archives.

Modelling conventions:

* Bytes are `Nat` values (below `256` in well-formed buffers); fixed-width
  machine integers are represented by their unsigned bit patterns (`Nat`
  below `2 ^ 32` for `u32`/`i32`), with an explicit `% 2 ^ 32` wherever the
  Rust code uses wrapping arithmetic.  XOR of two's-complement `i32` values
  equals XOR of their bit patterns, so every `^` in the source is `Nat.xor`
  here.
* The cursor-carrying `Decrypter` struct becomes the record
  `DecrypterState`; its `key_bytes` field is always `key.to_le_bytes()`
  (kept in sync by `update_key`), so it is represented by the derived
  function `keyByte` instead of a duplicated field.
* Buffer reads in the source index slices without bounds checks and panic
  when they run past the end; reads here return `Option`, with `none` as
  the panic.
* The filesystem sink (out of scope for the library core) is modelled as
  the list of already-existing target paths; a target path is identified
  with the entry's filename bytes, since the output root is one fixed
  prefix shared by all entries of a run, and a successful write adds the
  written path.
-/

namespace Rgssad

/-- Bytes of the magic constant `ARCHIVE_HEADER = b"RGSSAD"` (lib.rs 36). -/
def ARCHIVE_HEADER : List Nat := [82, 71, 83, 83, 65, 68]

/-- Constant `OLDER_DEFAULT_KEY = 0xDEADCAFE` (lib.rs 37). -/
def OLDER_DEFAULT_KEY : Nat := 0xDEADCAFE

/-- Enum `EngineType` (lib.rs 52-56). -/
inductive EngineType where
  | Older
  | VXAce
  deriving DecidableEq

/-- Enum `ExtractError` (lib.rs 39-45); `InvalidHeader` carries the six
bytes found at the start of the buffer, `InvalidEngine` the variant byte. -/
inductive ExtractError where
  | InvalidHeader (found : List Nat)
  | InvalidEngine (found : Nat)
  deriving DecidableEq

/-- Enum `ExtractOutcome` (lib.rs 47-50). -/
inductive ExtractOutcome where
  | Extracted
  | FilesExist
  deriving DecidableEq

/-- Struct `ArchiveEntry` (lib.rs 72-78): `size` is the `i32` bit pattern,
`offset` the `usize` value, `key` the `u32` value. -/
structure ArchiveEntry where
  filename_bytes : List Nat := []
  size : Nat := 0
  offset : Nat := 0
  key : Nat := 0
  deriving DecidableEq

/-- The mutable part of struct `Decrypter` (lib.rs 81-89).  The source also
caches `len = data.len()` and `key_bytes = key.to_le_bytes()`; both are
recomputed here.  The `force` flag is passed separately to `extract`. -/
structure DecrypterState where
  data : List Nat
  pos : Nat
  engine_type : EngineType
  key : Nat
  deriving DecidableEq

/-- Little-endian byte `i` of a 32-bit value: `key.to_le_bytes()[i]`. -/
def keyByte (k i : Nat) : Nat := k / 256 ^ i % 256

/-- The key recurrence `key.wrapping_mul(7).wrapping_add(3)` (lib.rs 172,
189, 216). -/
def advanceKey (k : Nat) : Nat := (k * 7 + 3) % 2 ^ 32

/-- Iterated key recurrence (specification side): `iterKey n k` is the key
after `n` advances from `k`. -/
def iterKey : Nat → Nat → Nat
  | 0, k => k
  | n + 1, k => iterKey n (advanceKey k)

/-- Method `read_bytes` (lib.rs 132-136): advances `pos` by `n` and yields
`data[pos .. pos + n]`; the source panics when that range leaves the
buffer, modelled by `none`. -/
def readBytes (s : DecrypterState) (n : Nat) : Option (List Nat × DecrypterState) :=
  if s.pos + n ≤ s.data.length then
    some ((s.data.drop s.pos).take n, { s with pos := s.pos + n })
  else none

/-- Little-endian recomposition of (up to) four bytes, as in
`i32::from_le_bytes` (lib.rs 141). -/
def fromLe4 (l : List Nat) : Nat :=
  l.getD 0 0 + 256 * l.getD 1 0 + 256 ^ 2 * l.getD 2 0 + 256 ^ 3 * l.getD 3 0

/-- Method `read_int` (lib.rs 139-142): the next four little-endian bytes
read as an `i32` (represented by its bit pattern). -/
def readInt (s : DecrypterState) : Option (Nat × DecrypterState) :=
  (readBytes s 4).map fun p => (fromLe4 p.1, p.2)

/-- Method `read_byte` (lib.rs 145-148). -/
def readByte (s : DecrypterState) : Option (Nat × DecrypterState) :=
  if s.pos < s.data.length then
    some (s.data.getD s.pos 0, { s with pos := s.pos + 1 })
  else none

/-- Method `seek_byte` with `SeekFrom::Start` (lib.rs 151-156). -/
def seekStart (s : DecrypterState) (offset : Nat) : DecrypterState :=
  { s with pos := offset }

/-- Method `seek_byte` with `SeekFrom::Current` (lib.rs 151-156). -/
def seekCurrent (s : DecrypterState) (offset : Nat) : DecrypterState :=
  { s with pos := s.pos + offset }

/-- Rust cast `i32 as usize` on a bit pattern: sign extension to 64 bits. -/
def usizeOfI32 (p : Nat) : Nat := if p < 2 ^ 31 then p else 2 ^ 64 - 2 ^ 32 + p

/-- Method `decrypt_int` (lib.rs 184-193): XOR the next little-endian
`i32` with the current key; only the `Older` engine advances the key. -/
def decryptInt (s : DecrypterState) : Option (Nat × DecrypterState) :=
  (readInt s).map fun p =>
    (p.1 ^^^ s.key,
     if s.engine_type = .Older then { p.2 with key := advanceKey s.key } else p.2)

/-- The `VXAce` branch of `decrypt_filename` (lib.rs 200-212): cycle
`key_byte_pos` through the four little-endian key bytes; the key itself is
never advanced, only the position wraps from `4` back to `0`. -/
def vxNameLoop (key : Nat) : List Nat → Nat → List Nat
  | [], _ => []
  | b :: bs, kpos =>
    if kpos = 4 then (b ^^^ keyByte key 0) :: vxNameLoop key bs 1
    else (b ^^^ keyByte key kpos) :: vxNameLoop key bs (kpos + 1)

/-- The `Older` branch of `decrypt_filename` (lib.rs 213-218): XOR each
byte with `key as u8` and advance the key after every byte.  Returns the
decrypted bytes together with the final key. -/
def olderNameLoop : List Nat → Nat → List Nat × Nat
  | [], key => ([], key)
  | b :: bs, key =>
    ((b ^^^ key % 256) :: (olderNameLoop bs (advanceKey key)).1,
     (olderNameLoop bs (advanceKey key)).2)

/-- Method `decrypt_filename` (lib.rs 196-219); `n` is the capacity
reserved for `entry.filename_bytes` by the caller. -/
def decryptFilename (s : DecrypterState) (n : Nat) : Option (List Nat × DecrypterState) :=
  (readBytes s n).map fun p =>
    if s.engine_type = .VXAce then (vxNameLoop s.key p.1 0, p.2)
    else
      let r := olderNameLoop p.1 s.key
      (r.1, { p.2 with key := r.2 })

/-- Method `parse_header` (lib.rs 222-241): `none` is an out-of-bounds
panic, `some (.error _)` a typed failure, `some (.ok s)` success with the
detected engine variant stored in the state. -/
def parseHeader (s : DecrypterState) : Option (Except ExtractError DecrypterState) :=
  (readBytes s 6).bind fun p =>
    if p.1 ≠ ARCHIVE_HEADER then some (.error (.InvalidHeader p.1))
    else
      (readByte (seekCurrent p.2 1)).map fun q =>
        if q.1 = 1 then .ok { q.2 with engine_type := .Older }
        else if q.1 = 3 then .ok { q.2 with engine_type := .VXAce }
        else .error (.InvalidEngine q.1)

/-- One fuel-indexed unfolding of the `loop` in `extract_entries`
(lib.rs 253-291).  Exhausted fuel gives `none`; `extractEntries` supplies
more fuel than the loop can consume.  Note that in both arms the `break`
exits before `entries.push(entry)` runs, so the entry in flight when the
loop stops is not recorded. -/
def entriesLoop : Nat → DecrypterState → Option (List ArchiveEntry × DecrypterState)
  | 0, _ => none
  | fuel + 1, s =>
    match s.engine_type with
    | .VXAce =>
      (decryptInt s).bind fun p1 =>
        if usizeOfI32 p1.1 = 0 then some ([], p1.2)
        else
          (decryptInt p1.2).bind fun p2 =>
            (decryptInt p2.2).bind fun p3 =>
              (decryptInt p3.2).bind fun p4 =>
                (decryptFilename p4.2 (usizeOfI32 p4.1)).bind fun p5 =>
                  (entriesLoop fuel p5.2).map fun r =>
                    ({ filename_bytes := p5.1, size := p2.1,
                       offset := usizeOfI32 p1.1, key := p3.1 } :: r.1, r.2)
    | .Older =>
      (decryptInt s).bind fun p1 =>
        (decryptFilename p1.2 (usizeOfI32 p1.1)).bind fun p2 =>
          (decryptInt p2.2).bind fun p3 =>
            let s2 := seekCurrent p3.2 (usizeOfI32 p3.1)
            if s2.pos = s2.data.length then some ([], s2)
            else
              (entriesLoop fuel s2).map fun r =>
                ({ filename_bytes := p2.1, size := p3.1,
                   offset := p3.2.pos, key := p3.2.key } :: r.1, r.2)

/-- Method `extract_entries` (lib.rs 244-294): for `VXAce` first read the
raw seed and derive the table key `seed * 9 + 3 (mod 2 ^ 32)`, then run
the loop; the loop is driven with fuel `data.length + 1`. -/
def extractEntries (s : DecrypterState) : Option (List ArchiveEntry × DecrypterState) :=
  match s.engine_type with
  | .VXAce =>
    (readInt s).bind fun p =>
      entriesLoop (s.data.length + 1) { p.2 with key := (p.1 * 9 + 3) % 2 ^ 32 }
  | .Older => entriesLoop (s.data.length + 1) s

/-- The XOR loop of `decrypt_entry` (lib.rs 169-178); `kpos` is
`key_byte_pos`, the key advances when `kpos` wraps from `4`. -/
def decryptLoop : Nat → Nat → List Nat → List Nat
  | _, _, [] => []
  | key, kpos, b :: bs =>
    if kpos = 4 then
      (b ^^^ keyByte (advanceKey key) 0) :: decryptLoop (advanceKey key) 1 bs
    else (b ^^^ keyByte key kpos) :: decryptLoop key (kpos + 1) bs

/-- Method `decrypt_entry` (lib.rs 159-181): seek to `entry.offset`, read
`entry.size as usize` bytes (`none` on out-of-bounds), XOR with the byte
keystream seeded from `entry.key`.  Only a local key copy and the cursor
are touched, so the result is a pure function of the buffer and the
descriptor. -/
def decryptEntry (data : List Nat) (e : ArchiveEntry) : Option (List Nat) :=
  if e.offset + usizeOfI32 e.size ≤ data.length then
    some (decryptLoop e.key 0 ((data.drop e.offset).take (usizeOfI32 e.size)))
  else none

/-- Method `reset` (lib.rs 296-303). -/
def resetState (data : List Nat) : DecrypterState :=
  { data := data, pos := 0, engine_type := .Older, key := OLDER_DEFAULT_KEY }

/-- Per-entry output loop of `extract` (lib.rs 335-349).  `fs` is the set
of already-existing target paths (a path is the entry's filename bytes);
an existing path with `force` disabled stops the whole run with
`FilesExist`, otherwise the entry is decrypted (`none` when that reads out
of bounds) and written.  Returns the outcome and the written paths in
order. -/
def writeLoop (data : List Nat) (force : Bool) :
    List (List Nat) → List ArchiveEntry → Option (ExtractOutcome × List (List Nat))
  | _, [] => some (.Extracted, [])
  | fs, e :: es =>
    if e.filename_bytes ∈ fs ∧ force = false then some (.FilesExist, [])
    else
      (decryptEntry data e).bind fun _ =>
        (writeLoop data force (e.filename_bytes :: fs) es).map fun r =>
          (r.1, e.filename_bytes :: r.2)

/-- Method `Decrypter::extract` (lib.rs 324-352): reset, parse the header,
decode the entry table, then decrypt and write each entry in order. -/
def extract (data : List Nat) (force : Bool) (fs : List (List Nat)) :
    Option (Except ExtractError (ExtractOutcome × List (List Nat))) :=
  (parseHeader (resetState data)).bind fun r =>
    match r with
    | .error e => some (.error e)
    | .ok s =>
      (extractEntries s).bind fun p =>
        (writeLoop data force fs p.1).map fun w => .ok w

/-! Specification-side definitions (spec.md §4.2, §4.3, §6, §8): keystream
formulas, the wire-format encoder used to build archives, and the
first-collision split of an entry list. -/

/-- Byte `i` of the advancing keystream of spec §4.2 `byteKeystream()`
seeded with `k`: byte `i % 4` of the `i / 4`-th iterate of the
recurrence. -/
def keystreamByte (k i : Nat) : Nat := keyByte (iterKey (i / 4) k) (i % 4)

/-- Indexed map, used to state keystream formulas positionally. -/
def streamMap (f : Nat → Nat → Nat) : Nat → List Nat → List Nat
  | _, [] => []
  | i, b :: bs => f i b :: streamMap f (i + 1) bs

/-- Little-endian serialization of a 32-bit value. -/
def le4 (v : Nat) : List Nat := [v % 256, v / 256 % 256, v / 256 ^ 2 % 256, v / 256 ^ 3 % 256]

/-- Encrypt one 32-bit table field for a VXAce table with table key `k`:
XOR with `k`, then serialize little-endian (spec §4.3). -/
def encInt (k v : Nat) : List Nat := le4 (v ^^^ k)

/-- Encrypt a VXAce filename: XOR with the cyclic table-key bytes. -/
def encName (k : Nat) (name : List Nat) : List Nat :=
  streamMap (fun i b => b ^^^ keyByte k (i % 4)) 0 name

/-- A plaintext VXAce entry record, as laid out by spec §4.3. -/
structure VXEntrySpec where
  offset : Nat
  size : Nat
  key : Nat
  name : List Nat
  deriving DecidableEq

/-- Encode one VXAce entry record: offset, size, key, name length, name. -/
def encVXEntry (k : Nat) (e : VXEntrySpec) : List Nat :=
  encInt k e.offset ++ encInt k e.size ++ encInt k e.key ++
    encInt k e.name.length ++ encName k e.name

/-- Encode a whole VXAce entry table: the entries followed by the
encrypted zero terminator. -/
def encVXTable (k : Nat) (es : List VXEntrySpec) : List Nat :=
  (es.map (encVXEntry k)).flatten ++ encInt k 0

/-- Well-formedness of a plaintext VXAce entry record: nonzero offset and
fields small enough that their `i32` patterns are their values. -/
def wfVXEntry (e : VXEntrySpec) : Prop :=
  0 < e.offset ∧ e.offset < 2 ^ 31 ∧ e.size < 2 ^ 31 ∧ e.key < 2 ^ 32 ∧
    e.name.length < 2 ^ 31

instance (e : VXEntrySpec) : Decidable (wfVXEntry e) := by
  unfold wfVXEntry; infer_instance

/-- The descriptor the decoder should produce for a plaintext record. -/
def toArchiveEntry (e : VXEntrySpec) : ArchiveEntry :=
  { filename_bytes := e.name, size := e.size, offset := e.offset, key := e.key }

/-- First collision while iterating entries against the existing paths
`fs`: the entries before the first entry whose path already exists, and
that entry; `none` when no target collides.  Writing an entry adds its
path. -/
def collisionSplit (fs : List (List Nat)) :
    List ArchiveEntry → Option (List ArchiveEntry × ArchiveEntry)
  | [] => none
  | e :: es =>
    if e.filename_bytes ∈ fs then some ([], e)
    else (collisionSplit (e.filename_bytes :: fs) es).map fun r => (e :: r.1, r.2)

/-! Concrete inputs used by witnesses and boundary evaluations. -/

/-- A valid one-entry Older archive, 18 bytes: header `RGSSAD 0 1`, then the
entry encrypted with the key trace from `0xDEADCAFE`: length field 1,
filename "A" (byte 65), size field 1, one content byte `10`.  The cursor
lands exactly on the buffer end after the entry. -/
def olderOneEntry : List Nat :=
  [82, 71, 83, 83, 65, 68, 0, 1, 255, 202, 173, 222, 180, 183, 218, 67, 159, 10]

/-- A VXAce archive (seed 0, table key 3) whose single entry has
`offset = 100`, `size = 4`: the content range lies past the end of the
33-byte buffer. -/
def vxOobArchive : List Nat :=
  ARCHIVE_HEADER ++ [0, 3] ++ le4 0 ++ encVXTable 3 [⟨100, 4, 0, [65]⟩]

/-- A 4-byte VXAce session state whose next decrypted int is `0`. -/
def c2State : DecrypterState := ⟨[5, 0, 0, 0], 0, .VXAce, 5⟩

/-- A 2-byte Older session state with key 1. -/
def c5State : DecrypterState := ⟨[7, 9], 0, .Older, 1⟩

/-- A 5-byte VXAce session state with table key 1: long enough that the
4-byte keystream cycle wraps once inside a filename. -/
def c6State : DecrypterState := ⟨[0, 0, 0, 0, 0], 0, .VXAce, 1⟩

/-- A VXAce state sitting on a 4-byte zero seed. -/
def c7State : DecrypterState := ⟨[0, 0, 0, 0], 0, .VXAce, 0⟩

/-- A well-formed plaintext VXAce entry used by witnesses. -/
def vxEntryW : VXEntrySpec := ⟨17, 1, 5, [65]⟩

/-- An entry descriptor with an empty content range, used by the
write-loop witness. -/
def writeEntryW : ArchiveEntry := ⟨[65], 0, 0, 0⟩

/-! Helper lemmas. -/

theorem streamMap_shift (f : Nat → Nat → Nat) :
    ∀ (bs : List Nat) (n : Nat),
      streamMap f (n + 1) bs = streamMap (fun i b => f (i + 1) b) n bs := by
  intro bs
  induction bs with
  | nil => intro n; rfl
  | cons b bs ih =>
    intro n
    simp only [streamMap, ih]

theorem streamMap_congr {f g : Nat → Nat → Nat} (h : ∀ i b, f i b = g i b) :
    ∀ (n : Nat) (bs : List Nat), streamMap f n bs = streamMap g n bs := by
  intro n bs
  induction bs generalizing n with
  | nil => rfl
  | cons b bs ih => simp only [streamMap, h, ih]

theorem streamMap_length (f : Nat → Nat → Nat) :
    ∀ (n : Nat) (bs : List Nat), (streamMap f n bs).length = bs.length := by
  intro n bs
  induction bs generalizing n with
  | nil => rfl
  | cons b bs ih => simp only [streamMap, List.length_cons, ih]

theorem streamMap_xor_invol (g : Nat → Nat) :
    ∀ (n : Nat) (bs : List Nat),
      streamMap (fun i b => b ^^^ g i) n (streamMap (fun i b => b ^^^ g i) n bs) = bs := by
  intro n bs
  induction bs generalizing n with
  | nil => rfl
  | cons b bs ih =>
    simp only [streamMap, ih, Nat.xor_cancel_right]

theorem streamMap_mod4_congr (f : Nat → Nat → Nat) :
    ∀ (bs : List Nat) (n m : Nat), n % 4 = m % 4 →
      streamMap (fun i b => f (i % 4) b) n bs = streamMap (fun i b => f (i % 4) b) m bs := by
  intro bs
  induction bs with
  | nil => intro n m _; rfl
  | cons b bs ih =>
    intro n m h
    simp only [streamMap, h]
    exact congrArg _ (ih (n + 1) (m + 1) (by omega))

theorem iterKey_succ (n k : Nat) : iterKey (n + 1) k = iterKey n (advanceKey k) := rfl

/-- The VXAce filename loop is XOR with the cyclic key bytes, indexed by
position modulo 4; the key never advances. -/
theorem vxNameLoop_eq (key : Nat) :
    ∀ (bs : List Nat) (kpos : Nat), kpos ≤ 4 →
      vxNameLoop key bs kpos =
        streamMap (fun i b => b ^^^ keyByte key (i % 4)) kpos bs := by
  intro bs
  induction bs with
  | nil => intro kpos _; rfl
  | cons b bs ih =>
    intro kpos hk
    by_cases h4 : kpos = 4
    · subst h4
      have e1 : vxNameLoop key (b :: bs) 4 = (b ^^^ keyByte key 0) :: vxNameLoop key bs 1 := by
        simp [vxNameLoop]
      rw [e1]
      simp only [streamMap, List.cons.injEq]
      refine ⟨by norm_num, ?_⟩
      rw [ih 1 (by omega)]
      exact streamMap_mod4_congr (fun r b => b ^^^ keyByte key r) bs 1 (4 + 1) (by norm_num)
    · simp only [vxNameLoop, if_neg h4, streamMap, List.cons.injEq]
      refine ⟨?_, ih (kpos + 1) (by omega)⟩
      rw [Nat.mod_eq_of_lt (show kpos < 4 by omega)]

/-- The Older filename loop: byte `i` is XORed with the low 8 bits of the
`i`-th iterate of the key, and the final key is the `length`-th iterate. -/
theorem olderNameLoop_eq :
    ∀ (bs : List Nat) (key : Nat),
      olderNameLoop bs key =
        (streamMap (fun i b => b ^^^ iterKey i key % 256) 0 bs, iterKey bs.length key) := by
  intro bs
  induction bs with
  | nil => intro key; rfl
  | cons b bs ih =>
    intro key
    simp only [olderNameLoop, ih, streamMap, List.length_cons, Prod.mk.injEq,
      List.cons.injEq]
    refine ⟨⟨rfl, ?_⟩, rfl⟩
    have hs := streamMap_shift (fun i b => b ^^^ iterKey i key % 256) bs 0
    norm_num at hs
    rw [hs]
    exact streamMap_congr (fun i b => rfl) 0 bs

/-- The XOR loop of `decrypt_entry`: starting at key byte position `kpos`
of key `key`, byte `i` of the input is XORed with byte `(kpos + i) % 4` of
the `(kpos + i) / 4`-th key iterate. -/
theorem decryptLoop_eq :
    ∀ (bs : List Nat) (key kpos : Nat), kpos ≤ 4 →
      decryptLoop key kpos bs =
        streamMap (fun i b => b ^^^ keyByte (iterKey ((kpos + i) / 4) key) ((kpos + i) % 4))
          0 bs := by
  intro bs
  induction bs with
  | nil => intro key kpos _; rfl
  | cons b bs ih =>
    intro key kpos hk
    by_cases h4 : kpos = 4
    · subst h4
      have e1 : decryptLoop key 4 (b :: bs) =
          (b ^^^ keyByte (advanceKey key) 0) :: decryptLoop (advanceKey key) 1 bs := by
        simp [decryptLoop]
      rw [e1, ih (advanceKey key) 1 (by omega)]
      simp only [streamMap, List.cons.injEq]
      refine ⟨by norm_num [iterKey], ?_⟩
      have hs := streamMap_shift
        (fun i b => b ^^^ keyByte (iterKey ((4 + i) / 4) key) ((4 + i) % 4)) bs 0
      rw [hs]
      refine streamMap_congr ?_ 0 bs
      intro i b
      have d1 : (1 + i) / 4 + 1 = (4 + (i + 1)) / 4 := by omega
      have d2 : (1 + i) % 4 = (4 + (i + 1)) % 4 := by omega
      rw [← d1, ← d2, iterKey_succ]
    · have e2 : decryptLoop key kpos (b :: bs) =
          (b ^^^ keyByte key kpos) :: decryptLoop key (kpos + 1) bs := by
        simp [decryptLoop, if_neg h4]
      rw [e2, ih key (kpos + 1) (by omega)]
      simp only [streamMap, List.cons.injEq]
      constructor
      · have h1 : (kpos + 0) / 4 = 0 := by omega
        have h2 : (kpos + 0) % 4 = kpos := by omega
        rw [h1, h2]
        rfl
      · have hs := streamMap_shift
          (fun i b => b ^^^ keyByte (iterKey ((kpos + i) / 4) key) ((kpos + i) % 4)) bs 0
        rw [hs]
        refine streamMap_congr ?_ 0 bs
        intro i b
        have d1 : (kpos + 1 + i) / 4 = (kpos + (i + 1)) / 4 := by omega
        have d2 : (kpos + 1 + i) % 4 = (kpos + (i + 1)) % 4 := by omega
        rw [d1, d2]

theorem le4_length (v : Nat) : (le4 v).length = 4 := rfl

theorem encInt_length (k v : Nat) : (encInt k v).length = 4 := rfl

theorem fromLe4_le4 {v : Nat} (hv : v < 2 ^ 32) : fromLe4 (le4 v) = v := by
  have e : fromLe4 (le4 v) =
      v % 256 + 256 * (v / 256 % 256) + 256 ^ 2 * (v / 256 ^ 2 % 256) +
        256 ^ 3 * (v / 256 ^ 3 % 256) := rfl
  rw [e]
  omega

theorem xor_lt_32 {a b : Nat} (ha : a < 2 ^ 32) (hb : b < 2 ^ 32) : a ^^^ b < 2 ^ 32 :=
  Nat.xor_lt_two_pow ha hb

/-- Reading exactly the bytes `xs` sitting at the cursor. -/
theorem readBytes_encoded {s : DecrypterState} {xs rest : List Nat}
    (hpos : s.pos ≤ s.data.length) (h : s.data.drop s.pos = xs ++ rest) :
    readBytes s xs.length = some (xs, { s with pos := s.pos + xs.length }) ∧
      s.data.drop (s.pos + xs.length) = rest ∧ s.pos + xs.length ≤ s.data.length := by
  have hlen : s.data.length - s.pos = xs.length + rest.length := by
    rw [← List.length_drop, h, List.length_append]
  have hb : s.pos + xs.length ≤ s.data.length := by omega
  have hdrop : s.data.drop (s.pos + xs.length) = rest := by
    rw [← List.drop_drop, h, List.drop_left]
  refine ⟨?_, hdrop, hb⟩
  simp only [readBytes, if_pos hb, h, List.take_left]

/-- Reading an encrypted 32-bit field of a VXAce table decrypts it to its
plaintext and leaves the key unchanged. -/
theorem decryptInt_encoded {s : DecrypterState} {v : Nat} {rest : List Nat}
    (hEng : s.engine_type = .VXAce) (hpos : s.pos ≤ s.data.length)
    (h : s.data.drop s.pos = encInt s.key v ++ rest)
    (hv : v < 2 ^ 32) (hk : s.key < 2 ^ 32) :
    decryptInt s = some (v, { s with pos := s.pos + 4 }) ∧
      s.data.drop (s.pos + 4) = rest ∧ s.pos + 4 ≤ s.data.length := by
  have hr := readBytes_encoded hpos h
  rw [encInt_length] at hr
  obtain ⟨hrb, hdrop, hb⟩ := hr
  refine ⟨?_, hdrop, hb⟩
  have hne : s.engine_type ≠ EngineType.Older := by rw [hEng]; intro hc; cases hc
  have hfe : fromLe4 (encInt s.key v) = v ^^^ s.key := fromLe4_le4 (xor_lt_32 hv hk)
  simp only [decryptInt, readInt, hrb, Option.map_some', if_neg hne]
  rw [hfe, Nat.xor_cancel_right]

/-- Full characterization of a successful `decrypt_int`: the result is the
raw little-endian field XORed with the current key, the cursor moves four
bytes, and exactly the Older engine advances the key. -/
theorem decryptInt_spec {s s' : DecrypterState} {v : Nat}
    (h : decryptInt s = some (v, s')) :
    v = fromLe4 ((s.data.drop s.pos).take 4) ^^^ s.key ∧
      s'.key = (if s.engine_type = .Older then advanceKey s.key else s.key) ∧
      s'.pos = s.pos + 4 ∧ s'.data = s.data ∧ s'.engine_type = s.engine_type := by
  unfold decryptInt readInt readBytes at h
  by_cases hb : s.pos + 4 ≤ s.data.length
  · rw [if_pos hb] at h
    simp only [Option.map_some', Option.some.injEq, Prod.mk.injEq] at h
    obtain ⟨hv, hs⟩ := h
    subst hv
    by_cases hE : s.engine_type = EngineType.Older
    · rw [if_pos hE] at hs
      subst hs
      simp [hE]
    · rw [if_neg hE] at hs
      subst hs
      simp [hE]
  · rw [if_neg hb] at h
    simp at h

/-- State bookkeeping of a successful `decrypt_filename`: the buffer and
engine are untouched, the cursor moves `n` bytes, and the VXAce branch
leaves the key unchanged. -/
theorem decryptFilename_parts {s s' : DecrypterState} {n : Nat} {nm : List Nat}
    (h : decryptFilename s n = some (nm, s')) :
    s'.data = s.data ∧ s'.engine_type = s.engine_type ∧ s'.pos = s.pos + n ∧
      (s.engine_type = .VXAce → s'.key = s.key) := by
  unfold decryptFilename readBytes at h
  by_cases hb : s.pos + n ≤ s.data.length
  · rw [if_pos hb] at h
    simp only [Option.map_some', Option.some.injEq] at h
    by_cases hE : s.engine_type = EngineType.VXAce
    · rw [if_pos hE] at h
      cases h
      simp
    · rw [if_neg hE] at h
      cases h
      refine ⟨rfl, rfl, rfl, fun hc => absurd hc hE⟩
  · rw [if_neg hb] at h
    simp at h

/-- The VXAce branch of `decrypt_filename` as a total rewrite. -/
theorem decryptFilename_vx {s : DecrypterState} {n : Nat}
    (hEng : s.engine_type = .VXAce) :
    decryptFilename s n =
      if s.pos + n ≤ s.data.length then
        some (vxNameLoop s.key ((s.data.drop s.pos).take n) 0, { s with pos := s.pos + n })
      else none := by
  unfold decryptFilename readBytes
  by_cases hb : s.pos + n ≤ s.data.length <;> simp [hb, hEng]

/-- The Older branch of `decrypt_filename` as a total rewrite. -/
theorem decryptFilename_older {s : DecrypterState} {n : Nat}
    (hEng : s.engine_type = .Older) :
    decryptFilename s n =
      if s.pos + n ≤ s.data.length then
        some ((olderNameLoop ((s.data.drop s.pos).take n) s.key).1,
          { s with pos := s.pos + n,
                   key := (olderNameLoop ((s.data.drop s.pos).take n) s.key).2 })
      else none := by
  unfold decryptFilename readBytes
  by_cases hb : s.pos + n ≤ s.data.length <;> simp [hb, hEng]

/-- During a VXAce session the entry-table loop never changes the key:
every field of every entry is decrypted with the same table-wide key. -/
theorem entriesLoop_vx_key :
    ∀ (fuel : Nat) (s : DecrypterState) (r : List ArchiveEntry × DecrypterState),
      s.engine_type = .VXAce → entriesLoop fuel s = some r → r.2.key = s.key := by
  intro fuel
  induction fuel with
  | zero => intro s r _ h; exact absurd h (by simp [entriesLoop])
  | succ fuel ih =>
    intro s r hE h
    simp only [entriesLoop, hE] at h
    rcases hd1 : decryptInt s with _ | p1
    · rw [hd1] at h; exact absurd h (by simp)
    rw [hd1, Option.some_bind] at h
    obtain ⟨_, hk1, _, _, hE1⟩ := decryptInt_spec hd1
    by_cases hz : usizeOfI32 p1.1 = 0
    · rw [if_pos hz] at h
      cases h
      simp [hk1, hE]
    rw [if_neg hz] at h
    rcases hd2 : decryptInt p1.2 with _ | p2
    · rw [hd2] at h; exact absurd h (by simp)
    rw [hd2, Option.some_bind] at h
    obtain ⟨_, hk2, _, _, hE2⟩ := decryptInt_spec hd2
    rcases hd3 : decryptInt p2.2 with _ | p3
    · rw [hd3] at h; exact absurd h (by simp)
    rw [hd3, Option.some_bind] at h
    obtain ⟨_, hk3, _, _, hE3⟩ := decryptInt_spec hd3
    rcases hd4 : decryptInt p3.2 with _ | p4
    · rw [hd4] at h; exact absurd h (by simp)
    rw [hd4, Option.some_bind] at h
    obtain ⟨_, hk4, _, _, hE4⟩ := decryptInt_spec hd4
    rcases hd5 : decryptFilename p4.2 (usizeOfI32 p4.1) with _ | p5
    · rw [hd5] at h; exact absurd h (by simp)
    rw [hd5, Option.some_bind] at h
    obtain ⟨_, hE5, _, hk5⟩ := decryptFilename_parts hd5
    rcases hd6 : entriesLoop fuel p5.2 with _ | r6
    · rw [hd6] at h; exact absurd h (by simp)
    rw [hd6, Option.map_some'] at h
    cases h
    have e1 : p1.2.engine_type = .VXAce := by rw [hE1, hE]
    have e2 : p2.2.engine_type = .VXAce := by rw [hE2, e1]
    have e3 : p3.2.engine_type = .VXAce := by rw [hE3, e2]
    have e4 : p4.2.engine_type = .VXAce := by rw [hE4, e3]
    have e5 : p5.2.engine_type = .VXAce := by rw [hE5, e4]
    have k1 : p1.2.key = s.key := by rw [hk1, if_neg (by rw [hE]; intro hc; cases hc)]
    have k2 : p2.2.key = p1.2.key := by rw [hk2, if_neg (by rw [e1]; intro hc; cases hc)]
    have k3 : p3.2.key = p2.2.key := by rw [hk3, if_neg (by rw [e2]; intro hc; cases hc)]
    have k4 : p4.2.key = p3.2.key := by rw [hk4, if_neg (by rw [e3]; intro hc; cases hc)]
    have k5 : p5.2.key = p4.2.key := hk5 e4
    have k6 : r6.2.key = p5.2.key := ih p5.2 r6 e5 hd6
    simp only [k6, k5, k4, k3, k2, k1]

theorem usizeOfI32_small {p : Nat} (h : p < 2 ^ 31) : usizeOfI32 p = p := by
  unfold usizeOfI32
  rw [if_pos h]

theorem encName_length (k : Nat) (name : List Nat) :
    (encName k name).length = name.length := streamMap_length _ 0 name

theorem encVXEntry_length (k : Nat) (e : VXEntrySpec) :
    (encVXEntry k e).length = 16 + e.name.length := by
  simp [encVXEntry, encInt, le4, encName_length]
  omega

theorem encVXTable_cons (k : Nat) (e : VXEntrySpec) (es : List VXEntrySpec) :
    encVXTable k (e :: es) = encVXEntry k e ++ encVXTable k es := by
  simp [encVXTable, List.append_assoc]

/-- Reading an encrypted VXAce filename at the cursor decrypts it back to
its plaintext. -/
theorem decryptFilename_vx_encoded {s : DecrypterState} {name rest : List Nat}
    (hEng : s.engine_type = .VXAce) (hpos : s.pos ≤ s.data.length)
    (h : s.data.drop s.pos = encName s.key name ++ rest) :
    decryptFilename s name.length = some (name, { s with pos := s.pos + name.length }) ∧
      s.data.drop (s.pos + name.length) = rest ∧
      s.pos + name.length ≤ s.data.length := by
  have hr := readBytes_encoded hpos h
  rw [encName_length] at hr
  obtain ⟨hrb, hdrop, hb⟩ := hr
  refine ⟨?_, hdrop, hb⟩
  unfold decryptFilename
  rw [hrb, Option.map_some', if_pos hEng]
  have hc : vxNameLoop s.key (encName s.key name) 0 = name := by
    rw [vxNameLoop_eq s.key _ 0 (by omega)]
    exact streamMap_xor_invol (fun i => keyByte s.key (i % 4)) 0 name
  rw [hc]

/-- Unfolding of one iteration of the entry-table loop in a VXAce state. -/
theorem entriesLoop_succ_vx (f : Nat) (s : DecrypterState) (hE : s.engine_type = .VXAce) :
    entriesLoop (f + 1) s =
      (decryptInt s).bind fun p1 =>
        if usizeOfI32 p1.1 = 0 then some ([], p1.2)
        else
          (decryptInt p1.2).bind fun p2 =>
            (decryptInt p2.2).bind fun p3 =>
              (decryptInt p3.2).bind fun p4 =>
                (decryptFilename p4.2 (usizeOfI32 p4.1)).bind fun p5 =>
                  (entriesLoop f p5.2).map fun r =>
                    ({ filename_bytes := p5.1, size := p2.1,
                       offset := usizeOfI32 p1.1, key := p3.1 } :: r.1, r.2) := by
  obtain ⟨data, pos, engine, key⟩ := s
  cases hE
  rfl

/-- Unfolding of one iteration of the entry-table loop in an Older state. -/
theorem entriesLoop_succ_older (f : Nat) (s : DecrypterState)
    (hE : s.engine_type = .Older) :
    entriesLoop (f + 1) s =
      (decryptInt s).bind fun p1 =>
        (decryptFilename p1.2 (usizeOfI32 p1.1)).bind fun p2 =>
          (decryptInt p2.2).bind fun p3 =>
            if p3.2.pos + usizeOfI32 p3.1 = p3.2.data.length then
              some ([], seekCurrent p3.2 (usizeOfI32 p3.1))
            else
              (entriesLoop f (seekCurrent p3.2 (usizeOfI32 p3.1))).map fun r =>
                ({ filename_bytes := p2.1, size := p3.1,
                   offset := p3.2.pos, key := p3.2.key } :: r.1, r.2) := by
  obtain ⟨data, pos, engine, key⟩ := s
  cases hE
  rfl

/-- One entry of an encoded VXAce table is decoded to its descriptor and
the loop continues after the entry's bytes with the same key. -/
theorem entriesLoop_cons_encoded {s : DecrypterState} {e : VXEntrySpec} {rest : List Nat}
    (f : Nat)
    (hE : s.engine_type = .VXAce) (hk : s.key < 2 ^ 32) (hpos : s.pos ≤ s.data.length)
    (hdrop : s.data.drop s.pos = encVXEntry s.key e ++ rest) (hwf : wfVXEntry e) :
    entriesLoop (f + 1) s =
      (entriesLoop f { s with pos := s.pos + (encVXEntry s.key e).length }).map
        (fun r => (toArchiveEntry e :: r.1, r.2)) ∧
      s.data.drop (s.pos + (encVXEntry s.key e).length) = rest ∧
      s.pos + (encVXEntry s.key e).length ≤ s.data.length := by
  obtain ⟨ho1, ho2, hsz, hke, hnl⟩ := hwf
  rw [encVXEntry] at hdrop
  simp only [List.append_assoc] at hdrop
  have h1 := decryptInt_encoded hE hpos hdrop (by omega) hk
  have h2 := decryptInt_encoded (s := { s with pos := s.pos + 4 }) hE h1.2.2 h1.2.1
    (by omega) hk
  dsimp only at h2
  have h3 := decryptInt_encoded (s := { s with pos := s.pos + 4 + 4 }) hE h2.2.2 h2.2.1
    hke hk
  dsimp only at h3
  have h4 := decryptInt_encoded (s := { s with pos := s.pos + 4 + 4 + 4 }) hE h3.2.2
    h3.2.1 (by omega) hk
  dsimp only at h4
  have h5 := decryptFilename_vx_encoded (s := { s with pos := s.pos + 4 + 4 + 4 + 4 })
    hE h4.2.2 h4.2.1
  dsimp only at h5
  have hu1 : usizeOfI32 e.offset = e.offset := usizeOfI32_small ho2
  have hu4 : usizeOfI32 e.name.length = e.name.length := usizeOfI32_small hnl
  have hpe : s.pos + 4 + 4 + 4 + 4 + e.name.length =
      s.pos + (encVXEntry s.key e).length := by
    rw [encVXEntry_length]
    omega
  refine ⟨?_, by rw [← hpe]; exact h5.2.1, by rw [← hpe]; exact h5.2.2⟩
  rw [entriesLoop_succ_vx f s hE]
  rw [h1.1, Option.some_bind]
  dsimp only
  rw [if_neg (by rw [hu1]; omega)]
  rw [h2.1, Option.some_bind]
  dsimp only
  rw [h3.1, Option.some_bind]
  dsimp only
  rw [h4.1, Option.some_bind]
  dsimp only
  rw [hu4, h5.1, Option.some_bind]
  dsimp only
  rw [hu1, hpe]
  rfl

/-- Decoding an encoded VXAce table yields exactly the encoded entries, in
order, stopping at the zero terminator without recording it; the key is
unchanged and trailing bytes are never read. -/
theorem entriesLoop_encoded :
    ∀ (es : List VXEntrySpec) (fuel : Nat) (s : DecrypterState) (rest : List Nat),
      s.engine_type = .VXAce → s.key < 2 ^ 32 → s.pos ≤ s.data.length →
      s.data.drop s.pos = encVXTable s.key es ++ rest →
      (∀ e ∈ es, wfVXEntry e) → es.length + 1 ≤ fuel →
      entriesLoop fuel s =
        some (es.map toArchiveEntry,
          { s with pos := s.pos + (encVXTable s.key es).length }) := by
  intro es
  induction es with
  | nil =>
    intro fuel s rest hE hk hpos hdrop _ hfuel
    obtain ⟨f, rfl⟩ : ∃ f, fuel = f + 1 := ⟨fuel - 1, by omega⟩
    have hnil : encVXTable s.key [] = encInt s.key 0 := rfl
    rw [hnil] at hdrop
    have h1 := decryptInt_encoded hE hpos hdrop (by norm_num) hk
    rw [entriesLoop_succ_vx f s hE, h1.1, Option.some_bind]
    dsimp only
    rw [if_pos (usizeOfI32_small (by norm_num))]
    rfl
  | cons e es ih =>
    intro fuel s rest hE hk hpos hdrop hwf hfuel
    obtain ⟨f, rfl⟩ : ∃ f, fuel = f + 1 := ⟨fuel - 1, by omega⟩
    rw [encVXTable_cons] at hdrop
    rw [List.append_assoc] at hdrop
    have step := entriesLoop_cons_encoded f hE hk hpos hdrop
      (hwf e (List.mem_cons_self e es))
    rw [step.1]
    have ihh := ih f { s with pos := s.pos + (encVXEntry s.key e).length } rest
      hE hk step.2.2 step.2.1 (fun x hx => hwf x (List.mem_cons_of_mem e hx))
      (by simpa using Nat.lt_of_succ_lt_succ (Nat.lt_of_lt_of_le (Nat.lt_succ_self _) hfuel))
    rw [ihh, Option.map_some']
    dsimp only
    have harr : s.pos + (encVXEntry s.key e).length + (encVXTable s.key es).length =
        s.pos + (encVXTable s.key (e :: es)).length := by
      rw [encVXTable_cons, List.length_append]
      omega
    rw [harr]
    rfl

/-- A table encoding is at least as long as its entry count. -/
theorem length_le_encVXTable (k : Nat) :
    ∀ es : List VXEntrySpec, es.length ≤ (encVXTable k es).length := by
  intro es
  induction es with
  | nil => simp
  | cons e es ih =>
    rw [encVXTable_cons, List.length_append, encVXEntry_length, List.length_cons]
    omega

/-- Unfolding of `extract_entries` in a VXAce state: read the raw seed,
derive the table key, run the loop. -/
theorem extractEntries_vx (s : DecrypterState) (hE : s.engine_type = .VXAce) :
    extractEntries s =
      (readInt s).bind fun p =>
        entriesLoop (s.data.length + 1) { p.2 with key := (p.1 * 9 + 3) % 2 ^ 32 } := by
  obtain ⟨data, pos, engine, key⟩ := s
  cases hE
  rfl

/-- Unfolding of `extract_entries` in an Older state: no seed is read and
the key is left as it was. -/
theorem extractEntries_older (s : DecrypterState) (hE : s.engine_type = .Older) :
    extractEntries s = entriesLoop (s.data.length + 1) s := by
  obtain ⟨data, pos, engine, key⟩ := s
  cases hE
  rfl

/-- Full decode of an encoded VXAce archive buffer, from the state left by
the header parser: the seed is read raw, the derived table key decrypts the
table, and the decoded descriptors are exactly the encoded entries. -/
theorem extractEntries_encoded (sep seed key0 : Nat) (entries : List VXEntrySpec)
    (rest : List Nat) (hseed : seed < 2 ^ 32) (hwf : ∀ e ∈ entries, wfVXEntry e) :
    extractEntries
        { data := ARCHIVE_HEADER ++ [sep, 3] ++ le4 seed ++
            encVXTable ((seed * 9 + 3) % 2 ^ 32) entries ++ rest,
          pos := 8, engine_type := .VXAce, key := key0 } =
      some (entries.map toArchiveEntry,
        { data := ARCHIVE_HEADER ++ [sep, 3] ++ le4 seed ++
            encVXTable ((seed * 9 + 3) % 2 ^ 32) entries ++ rest,
          pos := 12 + (encVXTable ((seed * 9 + 3) % 2 ^ 32) entries).length,
          engine_type := .VXAce, key := (seed * 9 + 3) % 2 ^ 32 }) := by
  rw [extractEntries_vx _ rfl]
  generalize hD : ARCHIVE_HEADER ++ [sep, 3] ++ le4 seed ++
      encVXTable ((seed * 9 + 3) % 2 ^ 32) entries ++ rest = D
  have hlenD : D.length =
      12 + (encVXTable ((seed * 9 + 3) % 2 ^ 32) entries).length + rest.length := by
    rw [← hD]
    simp [ARCHIVE_HEADER, le4]
    omega
  have hdrop8 : D.drop 8 =
      le4 seed ++ (encVXTable ((seed * 9 + 3) % 2 ^ 32) entries ++ rest) := by
    rw [← hD]
    have hassoc : ARCHIVE_HEADER ++ [sep, 3] ++ le4 seed ++
        encVXTable ((seed * 9 + 3) % 2 ^ 32) entries ++ rest =
        (ARCHIVE_HEADER ++ [sep, 3]) ++
          (le4 seed ++ (encVXTable ((seed * 9 + 3) % 2 ^ 32) entries ++ rest)) := by
      simp [List.append_assoc]
    rw [hassoc]
    exact List.drop_left' (by rfl)
  have hrb := readBytes_encoded
    (s := { data := D, pos := 8, engine_type := .VXAce, key := key0 })
    (by
      try dsimp only
      omega) hdrop8
  rw [le4_length] at hrb
  dsimp only at hrb
  unfold readInt
  rw [hrb.1, Option.map_some', Option.some_bind]
  dsimp only
  rw [fromLe4_le4 hseed]
  have hloop := entriesLoop_encoded entries (D.length + 1)
    { data := D, pos := 8 + 4, engine_type := .VXAce,
      key := (seed * 9 + 3) % 2 ^ 32 }
    rest rfl (Nat.mod_lt _ (by norm_num))
    (by
      try dsimp only
      omega)
    (by
      try dsimp only
      exact hrb.2.1) hwf
    (by
      try dsimp only
      have := length_le_encVXTable ((seed * 9 + 3) % 2 ^ 32) entries
      omega)
  rw [hloop]

/-- Total characterization of `parse_header` on a freshly reset state. -/
theorem parseHeader_cases (data : List Nat) :
    parseHeader (resetState data) =
      if 6 ≤ data.length then
        if data.take 6 ≠ ARCHIVE_HEADER then some (.error (.InvalidHeader (data.take 6)))
        else if 7 < data.length then
          (if data.getD 7 0 = 1 then
            some (.ok ⟨data, 8, .Older, OLDER_DEFAULT_KEY⟩)
          else if data.getD 7 0 = 3 then
            some (.ok ⟨data, 8, .VXAce, OLDER_DEFAULT_KEY⟩)
          else some (.error (.InvalidEngine (data.getD 7 0))))
        else none
      else none := by
  by_cases h6 : 6 ≤ data.length
  · rw [if_pos h6]
    have hr : readBytes (resetState data) 6 =
        some (data.take 6, ⟨data, 0 + 6, .Older, OLDER_DEFAULT_KEY⟩) := by
      unfold readBytes resetState
      rw [if_pos (by dsimp only; omega)]
      dsimp only
      rw [List.drop_zero]
    unfold parseHeader
    rw [hr, Option.some_bind]
    dsimp only
    by_cases hm : data.take 6 ≠ ARCHIVE_HEADER
    · rw [if_pos hm, if_pos hm]
    · rw [if_neg hm, if_neg hm]
      unfold seekCurrent readByte
      dsimp only
      norm_num
      by_cases h8 : 7 < data.length
      · rw [if_pos h8, if_pos h8]
        split
        · rfl
        · split <;> rfl
      · rw [if_neg h8, if_neg h8]
  · rw [if_neg h6]
    unfold parseHeader readBytes resetState
    rw [if_neg (by dsimp only; omega)]
    rfl

/-- The per-entry output loop: with overwrite disabled it stops at the
first colliding target with `FilesExist`, writing only the entries before
it; otherwise it writes every entry and reports `Extracted`. -/
theorem writeLoop_eq (data : List Nat) (force : Bool) :
    ∀ (entries : List ArchiveEntry) (fs : List (List Nat)),
      (∀ e ∈ entries, e.offset + usizeOfI32 e.size ≤ data.length) →
      writeLoop data force fs entries =
        some (match force, collisionSplit fs entries with
              | false, some (pre, _) =>
                  (.FilesExist, pre.map ArchiveEntry.filename_bytes)
              | _, _ => (.Extracted, entries.map ArchiveEntry.filename_bytes)) := by
  intro entries
  induction entries with
  | nil =>
    intro fs _
    cases force <;> rfl
  | cons e es ih =>
    intro fs hbound
    have hd : decryptEntry data e =
        some (decryptLoop e.key 0 ((data.drop e.offset).take (usizeOfI32 e.size))) := by
      unfold decryptEntry
      rw [if_pos (hbound e (List.mem_cons_self e es))]
    have hes := ih (e.filename_bytes :: fs)
      (fun x hx => hbound x (List.mem_cons_of_mem e hx))
    cases force
    · by_cases hin : e.filename_bytes ∈ fs
      · unfold writeLoop collisionSplit
        rw [if_pos ⟨hin, rfl⟩, if_pos hin]
        rfl
      · unfold writeLoop collisionSplit
        rw [if_neg (fun hc => hin hc.1), if_neg hin]
        rw [hd, Option.some_bind, hes]
        cases hsplit : collisionSplit (e.filename_bytes :: fs) es <;>
          simp [hsplit, Option.map_some']
    · unfold writeLoop
      rw [if_neg (fun hc => Bool.noConfusion hc.2)]
      rw [hd, Option.some_bind, hes]
      cases hsplit : collisionSplit (e.filename_bytes :: fs) es <;>
        simp [hsplit, Option.map_some']

/-! Claim theorems. -/

/-- C1 (code evaluated at the failing input): `olderOneEntry` is a valid
one-entry Older archive — after decoding the length field, the filename,
and the size field, advancing the cursor by the size lands exactly on the
buffer end (final cursor 18 = buffer length) — yet the decoder records no
entry at all: the `break` at lib.rs 284-287 exits the loop before
`entries.push(entry)` at lib.rs 290 runs, so the final (here: only) entry
is discarded and extraction reports `Extracted` having written nothing,
contradicting the claim that the last entry is recorded. -/
theorem C1_older_final_entry_dropped :
    extractEntries ⟨olderOneEntry, 8, .Older, OLDER_DEFAULT_KEY⟩ =
      some ([], ⟨olderOneEntry, 18, .Older, 1524300541⟩) ∧
      olderOneEntry.length = 18 ∧
      extract olderOneEntry false [] = some (.ok (.Extracted, [])) := by
  refine ⟨by decide, by decide, rfl⟩

/-- C2: `decrypt_int` returns the next 4 little-endian bytes XORed with
the current key (XOR of `i32` values is XOR of their bit patterns), and
advances the key via `key * 7 + 3 (mod 2 ^ 32)` exactly when the engine is
`Older`; consequently an entire VXAce entry-table loop leaves the
table-wide key unchanged across every field of every entry. -/
theorem C2_decryptInt_key_discipline :
    (∀ (s s' : DecrypterState) (v : Nat), decryptInt s = some (v, s') →
      v = fromLe4 ((s.data.drop s.pos).take 4) ^^^ s.key ∧
        s'.key = (if s.engine_type = .Older then (s.key * 7 + 3) % 2 ^ 32 else s.key) ∧
        s'.pos = s.pos + 4 ∧ s'.data = s.data ∧ s'.engine_type = s.engine_type) ∧
    (∀ (fuel : Nat) (s : DecrypterState) (r : List ArchiveEntry × DecrypterState),
      s.engine_type = .VXAce → entriesLoop fuel s = some r → r.2.key = s.key) := by
  constructor
  · intro s s' v h
    have hs := decryptInt_spec h
    simpa [advanceKey] using hs
  · exact entriesLoop_vx_key

/-- Witness for C2 at a concrete VXAce state: `decryptInt` leaves the key
at 5, and a full (terminator-only) table loop also returns key 5. -/
theorem C2_witness :
    decryptInt c2State = some (0, { c2State with pos := 4 }) ∧
      ({ c2State with pos := 4 } : DecrypterState).key =
        (if c2State.engine_type = .Older then (c2State.key * 7 + 3) % 2 ^ 32
         else c2State.key) ∧
      entriesLoop 1 c2State = some ([], { c2State with pos := 4 }) ∧
      (([], { c2State with pos := 4 }) :
          List ArchiveEntry × DecrypterState).2.key = c2State.key :=
  ⟨by decide,
   (C2_decryptInt_key_discipline.1 c2State { c2State with pos := 4 } 0 (by decide)).2.1,
   by decide,
   C2_decryptInt_key_discipline.2 1 c2State ([], { c2State with pos := 4 }) rfl
     (by decide)⟩

/-- C3: `decrypt_entry` is a pure function of the buffer and the
descriptor: it reads exactly `size as usize` bytes starting at `offset`
(out-of-bounds panicking as `none`) and XORs byte `i` with byte `i % 4` of
the `i / 4`-th iterate of a fresh key seeded with `descriptor.key` — the
key advancing via the recurrence after every 4 consumed bytes; no state is
shared with other entries. -/
theorem C3_decryptEntry_keystream :
    ∀ (data : List Nat) (e : ArchiveEntry),
      decryptEntry data e =
        if e.offset + usizeOfI32 e.size ≤ data.length then
          some (streamMap (fun i b => b ^^^ keystreamByte e.key i) 0
            ((data.drop e.offset).take (usizeOfI32 e.size)))
        else none := by
  intro data e
  unfold decryptEntry
  by_cases hb : e.offset + usizeOfI32 e.size ≤ data.length
  · rw [if_pos hb, if_pos hb]
    rw [decryptLoop_eq _ e.key 0 (by omega)]
    refine congrArg some (streamMap_congr ?_ 0 _)
    intro i b
    simp [keystreamByte]
  · rw [if_neg hb, if_neg hb]

/-- C4: decoding an encoded VXAce archive stops exactly at the encrypted
zero offset (the terminator is not recorded), records every entry before
the sentinel in archive order, and never looks at bytes after the
terminator (the result holds for every `rest`). -/
theorem C4_vxace_table_roundtrip (sep seed key0 : Nat) (entries : List VXEntrySpec)
    (rest : List Nat) (hseed : seed < 2 ^ 32) (hwf : ∀ e ∈ entries, wfVXEntry e) :
    extractEntries
        { data := ARCHIVE_HEADER ++ [sep, 3] ++ le4 seed ++
            encVXTable ((seed * 9 + 3) % 2 ^ 32) entries ++ rest,
          pos := 8, engine_type := .VXAce, key := key0 } =
      some (entries.map toArchiveEntry,
        { data := ARCHIVE_HEADER ++ [sep, 3] ++ le4 seed ++
            encVXTable ((seed * 9 + 3) % 2 ^ 32) entries ++ rest,
          pos := 12 + (encVXTable ((seed * 9 + 3) % 2 ^ 32) entries).length,
          engine_type := .VXAce, key := (seed * 9 + 3) % 2 ^ 32 }) :=
  extractEntries_encoded sep seed key0 entries rest hseed hwf

/-- Witness for C4: a concrete one-entry VXAce archive decodes to exactly
that entry. -/
theorem C4_witness :
    (0 : Nat) < 2 ^ 32 ∧ (∀ e ∈ [vxEntryW], wfVXEntry e) ∧
      extractEntries
          { data := ARCHIVE_HEADER ++ [0, 3] ++ le4 0 ++
              encVXTable ((0 * 9 + 3) % 2 ^ 32) [vxEntryW] ++ [],
            pos := 8, engine_type := .VXAce, key := OLDER_DEFAULT_KEY } =
        some ([vxEntryW].map toArchiveEntry,
          { data := ARCHIVE_HEADER ++ [0, 3] ++ le4 0 ++
              encVXTable ((0 * 9 + 3) % 2 ^ 32) [vxEntryW] ++ [],
            pos := 12 + (encVXTable ((0 * 9 + 3) % 2 ^ 32) [vxEntryW]).length,
            engine_type := .VXAce, key := (0 * 9 + 3) % 2 ^ 32 }) :=
  ⟨by norm_num, by decide,
   C4_vxace_table_roundtrip 0 0 OLDER_DEFAULT_KEY [vxEntryW] [] (by norm_num)
     (by decide)⟩

/-- C5: an Older filename is decrypted byte-granularly: byte `i` is XORed
with the low 8 bits of the `i`-th iterate of the key, and the key advances
once per byte, ending at the `length`-th iterate. -/
theorem C5_older_filename_bytewise (s s' : DecrypterState) (n : Nat) (nm : List Nat)
    (hE : s.engine_type = .Older) (h : decryptFilename s n = some (nm, s')) :
    nm = streamMap (fun i b => b ^^^ iterKey i s.key % 256) 0
        ((s.data.drop s.pos).take n) ∧
      s'.key = iterKey n s.key ∧ s'.pos = s.pos + n := by
  rw [decryptFilename_older hE] at h
  by_cases hb : s.pos + n ≤ s.data.length
  · rw [if_pos hb] at h
    simp only [Option.some.injEq] at h
    cases h
    have hlen : ((s.data.drop s.pos).take n).length = n := by
      rw [List.length_take, List.length_drop]
      omega
    refine ⟨?_, ?_, rfl⟩
    · rw [olderNameLoop_eq]
    · show (olderNameLoop ((s.data.drop s.pos).take n) s.key).2 = iterKey n s.key
      rw [olderNameLoop_eq]
      rw [hlen]
  · rw [if_neg hb] at h
    simp at h

/-- Witness for C5 at a concrete Older state. -/
theorem C5_witness :
    c5State.engine_type = .Older ∧
      decryptFilename c5State 2 = some ([6, 3], { c5State with pos := 2, key := 73 }) ∧
      [6, 3] = streamMap (fun i b => b ^^^ iterKey i c5State.key % 256) 0
          ((c5State.data.drop c5State.pos).take 2) ∧
      ({ c5State with pos := 2, key := 73 } : DecrypterState).key =
        iterKey 2 c5State.key :=
  ⟨rfl, by decide,
   (C5_older_filename_bytewise c5State { c5State with pos := 2, key := 73 } 2 [6, 3]
      rfl (by decide)).1,
   (C5_older_filename_bytewise c5State { c5State with pos := 2, key := 73 } 2 [6, 3]
      rfl (by decide)).2.1⟩

/-- C6 counterexample: VXAce filename decryption does not follow the
advancing `byteKeystream`.  On five zero bytes with table key 1, the code
XORs byte 4 with byte 0 of the unchanged key (giving 1), whereas a
keystream that advances the key via the recurrence after 4 consumed bytes
would XOR it with byte 0 of `1 * 7 + 3 = 10` (giving 10): the claimed
formula disagrees with the code at index 4. -/
theorem C6_counterexample :
    (decryptFilename c6State 5).map Prod.fst = some [1, 0, 0, 0, 1] ∧
      streamMap (fun i b => b ^^^ keystreamByte c6State.key i) 0
          ((c6State.data.drop c6State.pos).take 5) = [1, 0, 0, 0, 10] ∧
      ¬ (decryptFilename c6State 5).map Prod.fst =
          some (streamMap (fun i b => b ^^^ keystreamByte c6State.key i) 0
            ((c6State.data.drop c6State.pos).take 5)) := by
  refine ⟨by decide, by decide, by decide⟩

/-- C6 (amended): a VXAce filename is decrypted by XOR with the cyclic 4
little-endian bytes of the fixed table-wide key — the cycle restarts at
byte 0 for every filename and the key is never advanced during the
filename — and the table-wide key is unchanged afterwards. -/
theorem C6_vx_filename_fixed_cycle (s s' : DecrypterState) (n : Nat) (nm : List Nat)
    (hE : s.engine_type = .VXAce) (h : decryptFilename s n = some (nm, s')) :
    nm = streamMap (fun i b => b ^^^ keyByte s.key (i % 4)) 0
        ((s.data.drop s.pos).take n) ∧
      s'.key = s.key ∧ s'.pos = s.pos + n := by
  rw [decryptFilename_vx hE] at h
  by_cases hb : s.pos + n ≤ s.data.length
  · rw [if_pos hb] at h
    simp only [Option.some.injEq] at h
    cases h
    refine ⟨?_, rfl, rfl⟩
    rw [vxNameLoop_eq s.key _ 0 (by omega)]
  · rw [if_neg hb] at h
    simp at h

/-- Witness for the amended C6 at a concrete VXAce state. -/
theorem C6_witness :
    c6State.engine_type = .VXAce ∧
      decryptFilename c6State 5 = some ([1, 0, 0, 0, 1], { c6State with pos := 5 }) ∧
      [1, 0, 0, 0, 1] = streamMap (fun i b => b ^^^ keyByte c6State.key (i % 4)) 0
          ((c6State.data.drop c6State.pos).take 5) ∧
      ({ c6State with pos := 5 } : DecrypterState).key = c6State.key :=
  ⟨rfl, by decide,
   (C6_vx_filename_fixed_cycle c6State { c6State with pos := 5 } 5 [1, 0, 0, 0, 1]
      rfl (by decide)).1,
   (C6_vx_filename_fixed_cycle c6State { c6State with pos := 5 } 5 [1, 0, 0, 0, 1]
      rfl (by decide)).2.1⟩

/-- C7: for VXAce `extract_entries` reads one raw (undecrypted) 32-bit
little-endian seed at the cursor immediately after the header and enters
the table loop with key `seed * 9 + 3 (mod 2 ^ 32)`; for Older it enters
the loop directly, with no seed read and the cursor untouched; and a reset
session starts with the fixed key `0xDEADCAFE` and the Older engine. -/
theorem C7_key_derivation :
    ∀ (s : DecrypterState) (seed : Nat) (rest data0 : List Nat),
      (s.engine_type = .VXAce → seed < 2 ^ 32 →
        s.data.drop s.pos = le4 seed ++ rest →
        extractEntries s =
          entriesLoop (s.data.length + 1)
            { s with pos := s.pos + 4, key := (seed * 9 + 3) % 2 ^ 32 }) ∧
      (s.engine_type = .Older →
        extractEntries s = entriesLoop (s.data.length + 1) s) ∧
      (resetState data0).key = 0xDEADCAFE ∧
      (resetState data0).engine_type = .Older := by
  intro s seed rest data0
  refine ⟨?_, extractEntries_older s, rfl, rfl⟩
  intro hE hseed hdrop
  rw [extractEntries_vx s hE]
  have hpos : s.pos ≤ s.data.length := by
    have h4 : (s.data.drop s.pos).length = 4 + rest.length := by
      rw [hdrop, List.length_append, le4_length]
    rw [List.length_drop] at h4
    omega
  have hrb := readBytes_encoded hpos hdrop
  rw [le4_length] at hrb
  unfold readInt
  rw [hrb.1, Option.map_some', Option.some_bind]
  dsimp only
  rw [fromLe4_le4 hseed]

/-- Witness for C7 at a concrete VXAce state sitting on the zero seed. -/
theorem C7_witness :
    c7State.engine_type = .VXAce ∧ (0 : Nat) < 2 ^ 32 ∧
      c7State.data.drop c7State.pos = le4 0 ++ [] ∧
      extractEntries c7State =
        entriesLoop (c7State.data.length + 1)
          { c7State with pos := c7State.pos + 4, key := (0 * 9 + 3) % 2 ^ 32 } :=
  ⟨rfl, by norm_num, by decide,
   (C7_key_derivation c7State 0 [] []).1 rfl (by norm_num) (by decide)⟩

/-- C8: header validation fails with `InvalidHeader` carrying exactly the
first 6 bytes iff they differ from `"RGSSAD"`; with a good magic it fails
with `InvalidEngine` carrying the byte at offset 7 (after one ignored
separator byte) iff that byte is neither 1 nor 3; and on either typed
failure `extract` returns that failure — no entries are decoded, no
output is produced. -/
theorem C8_header_errors :
    ∀ (data : List Nat) (force : Bool) (fs : List (List Nat)),
      (6 ≤ data.length →
        (parseHeader (resetState data) =
            some (.error (.InvalidHeader (data.take 6))) ↔
          data.take 6 ≠ ARCHIVE_HEADER)) ∧
      (8 ≤ data.length → data.take 6 = ARCHIVE_HEADER →
        (parseHeader (resetState data) =
            some (.error (.InvalidEngine (data.getD 7 0))) ↔
          data.getD 7 0 ≠ 1 ∧ data.getD 7 0 ≠ 3)) ∧
      (∀ err, parseHeader (resetState data) = some (.error err) →
        extract data force fs = some (.error err)) := by
  intro data force fs
  refine ⟨?_, ?_, ?_⟩
  · intro h6
    rw [parseHeader_cases, if_pos h6]
    by_cases hm : data.take 6 ≠ ARCHIVE_HEADER
    · rw [if_pos hm]
      simp [hm]
    · rw [if_neg hm]
      constructor
      · intro hcontra
        exfalso
        by_cases h8 : 7 < data.length
        · rw [if_pos h8] at hcontra
          split at hcontra
          · simp at hcontra
          · split at hcontra
            · simp at hcontra
            · simp at hcontra
        · rw [if_neg h8] at hcontra
          simp at hcontra
      · intro hcontra
        exact absurd hcontra hm
  · intro h8 hm
    rw [parseHeader_cases, if_pos (by omega : 6 ≤ data.length),
      if_neg (fun hc => hc hm), if_pos (by omega : 7 < data.length)]
    by_cases hb1 : data.getD 7 0 = 1
    · rw [if_pos hb1]
      exact ⟨fun hc => absurd hc (by simp), fun hc => absurd hb1 hc.1⟩
    · rw [if_neg hb1]
      by_cases hb3 : data.getD 7 0 = 3
      · rw [if_pos hb3]
        exact ⟨fun hc => absurd hc (by simp), fun hc => absurd hb3 hc.2⟩
      · rw [if_neg hb3]
        exact ⟨fun _ => ⟨hb1, hb3⟩, fun _ => rfl⟩
  · intro err hp
    unfold extract
    rw [hp, Option.some_bind]

/-- Witness for C8: magic good, variant byte 2 → `InvalidEngine 2`, and
`extract` returns exactly that failure. -/
theorem C8_witness :
    8 ≤ (ARCHIVE_HEADER ++ [0, 2]).length ∧
      (ARCHIVE_HEADER ++ [0, 2]).take 6 = ARCHIVE_HEADER ∧
      (parseHeader (resetState (ARCHIVE_HEADER ++ [0, 2])) =
          some (.error (.InvalidEngine ((ARCHIVE_HEADER ++ [0, 2]).getD 7 0))) ↔
        (ARCHIVE_HEADER ++ [0, 2]).getD 7 0 ≠ 1 ∧
          (ARCHIVE_HEADER ++ [0, 2]).getD 7 0 ≠ 3) ∧
      extract (ARCHIVE_HEADER ++ [0, 2]) false [] =
        some (.error (.InvalidEngine 2)) :=
  ⟨by decide, by decide,
   (C8_header_errors (ARCHIVE_HEADER ++ [0, 2]) false []).2.1 (by decide) (by decide),
   (C8_header_errors (ARCHIVE_HEADER ++ [0, 2]) false []).2.2 (.InvalidEngine 2)
     rfl⟩

/-- C9: with overwrite disabled the output loop stops the whole run at the
first entry whose target already exists, returning `FilesExist` and
writing only the entries before the collision (not skipping it and
continuing); with no collision, or with force enabled, every entry is
written and the outcome is `Extracted`. -/
theorem C9_first_collision_aborts (data : List Nat) (force : Bool)
    (entries : List ArchiveEntry) (fs : List (List Nat))
    (hbound : ∀ e ∈ entries, e.offset + usizeOfI32 e.size ≤ data.length) :
    writeLoop data force fs entries =
      some (match force, collisionSplit fs entries with
            | false, some (pre, _) =>
                (.FilesExist, pre.map ArchiveEntry.filename_bytes)
            | _, _ => (.Extracted, entries.map ArchiveEntry.filename_bytes)) :=
  writeLoop_eq data force entries fs hbound

/-- Witness for C9: one entry whose target already exists aborts at once
with `FilesExist` and nothing written. -/
theorem C9_witness :
    (∀ e ∈ [writeEntryW], e.offset + usizeOfI32 e.size ≤ ([] : List Nat).length) ∧
      writeLoop [] false [[65]] [writeEntryW] =
        some (match false, collisionSplit [[65]] [writeEntryW] with
              | false, some (pre, _) =>
                  (.FilesExist, pre.map ArchiveEntry.filename_bytes)
              | _, _ =>
                  (.Extracted, [writeEntryW].map ArchiveEntry.filename_bytes)) :=
  ⟨by decide, C9_first_collision_aborts [] false [writeEntryW] [[65]] (by decide)⟩

/-- C10: decoding reads are not bounds-checked: a 6-byte buffer holding
only the magic makes `parse_header` read past the end, and `vxOobArchive`
decodes to a descriptor with `offset + size` beyond the buffer so
`decrypt_entry` reads past the end; in both cases the embedded `extract`
hits the out-of-bounds (`none`) branch and produces neither an outcome
nor a typed error. -/
theorem C10_unchecked_reads_reachable :
    extract [82, 71, 83, 83, 65, 68] false [] = none ∧
      extract vxOobArchive false [] = none ∧
      decryptEntry vxOobArchive (toArchiveEntry ⟨100, 4, 0, [65]⟩) = none ∧
      vxOobArchive.length = 33 := by
  refine ⟨rfl, rfl, by decide, by decide⟩

end Rgssad
